import Mathlib

/-! Verification of `support/apply-reviews.py`: the review-chain resolver and
the per-review apply/commit/cleanup protocol, shallowly embedded in Lean.
The remote metadata service is modelled as a function from review ids to
optional review records, shell commands become an explicit event trace,
and the unbounded Python recursion of `review_chain` is made explicit with
a fuel parameter.
-/

namespace ApplyReviews

/-- A review request record as returned by the review-tracking service
(the `review_request` JSON object read by `review_chain`): its `status`,
its `summary`, and the parent review ids listed in `depends_on` (each
`href` already resolved to a review id, as `extract_review_id` does). -/
structure ReviewRecord where
  status : String
  summary : String
  dependsOn : List String
deriving DecidableEq

/-- Outcome of `review_chain`.  `ok` carries the list of
`(review id, summary)` pairs.  `multiParent id` models the branch that
writes `Error: Review {id} has more than one parent` to stderr and calls
`sys.exit(1)`.  `cycle id` models the branch that reports a circular
dependency starting at `id` and calls `sys.exit(1)`.  `fetchFail id`
models `urllib2.urlopen` raising for a review that cannot be fetched.
`outOfFuel` is the marker of the embedding for recursion that has not
terminated within the given fuel (the Python code has no such bound). -/
inductive ChainResult where
  | ok (entries : List (String × String))
  | multiParent (id : String)
  | cycle (id : String)
  | fetchFail (id : String)
  | outOfFuel
deriving DecidableEq

/-- Shallow embedding of `review_chain` from `support/apply-reviews.py`
(lines 71-99).  `db` models the remote metadata service; `fuel` bounds the
recursion depth, which the Python code leaves unbounded.  The branch
structure follows the source: stop with an empty list on a submitted
review, fail on more than one parent, return a singleton on zero parents,
otherwise resolve the single parent and append the current entry unless it
already occurs in the resolved sub-chain. -/
def review_chain (db : String → Option ReviewRecord) : Nat → String → ChainResult
  | 0, _ => .outOfFuel
  | fuel+1, id =>
    match db id with
    | none => .fetchFail id
    | some r =>
      if r.status = "submitted" then .ok []
      else
        match r.dependsOn with
        | [] => .ok [(id, r.summary)]
        | [p] =>
          match review_chain db fuel p with
          | .ok l =>
            if (id, r.summary) ∈ l then .cycle id
            else .ok (l ++ [(id, r.summary)])
          | e => e
        | _ => .multiParent id

/-- One-step unfolding of `review_chain` at a successor fuel value. -/
theorem review_chain_succ (db : String → Option ReviewRecord) (fuel : Nat) (id : String) :
    review_chain db (fuel+1) id =
      match db id with
      | none => .fetchFail id
      | some r =>
        if r.status = "submitted" then .ok []
        else
          match r.dependsOn with
          | [] => .ok [(id, r.summary)]
          | [p] =>
            match review_chain db fuel p with
            | .ok l =>
              if (id, r.summary) ∈ l then .cycle id
              else .ok (l ++ [(id, r.summary)])
            | e => e
          | _ => .multiParent id := rfl

/-- Recognizer for the circular-dependency outcome of `review_chain`. -/
def isCycleErr : ChainResult → Bool
  | .cycle _ => true
  | _ => false

/-- A linear chain of open reviews in the metadata service `db`, listed
oldest ancestor first: the first entry has no parent, every later entry
has exactly the previous entry as its single parent, every entry has
status `open`, and the id of each entry does not occur among its
ancestors (the chain is linear, visiting N distinct reviews). -/
inductive IsChain (db : String → Option ReviewRecord) : String → List (String × String) → Prop where
  | root (id : String) (r : ReviewRecord) (hdb : db id = some r)
      (hst : r.status = "open") (hdep : r.dependsOn = []) :
      IsChain db id [(id, r.summary)]
  | step (id p : String) (r : ReviewRecord) (l : List (String × String))
      (hl : IsChain db p l) (hdb : db id = some r)
      (hst : r.status = "open") (hdep : r.dependsOn = [p])
      (hnew : id ∉ l.map Prod.fst) :
      IsChain db id (l ++ [(id, r.summary)])

/-- Concrete three-review metadata service: 100 is an open root, 101
depends on 100, 102 depends on 101, all open. -/
def dbChain3 : String → Option ReviewRecord := fun id =>
  if id = "100" then some ⟨"open", "s100", []⟩
  else if id = "101" then some ⟨"open", "s101", ["100"]⟩
  else if id = "102" then some ⟨"open", "s102", ["101"]⟩
  else none

/-- Concrete metadata service with a submitted parent: 101 is submitted,
102 is open and depends on 101. -/
def dbSubmitted : String → Option ReviewRecord := fun id =>
  if id = "101" then some ⟨"submitted", "s101", []⟩
  else if id = "102" then some ⟨"open", "s102", ["101"]⟩
  else none

/-- Concrete metadata service in which review 5 has two parents. -/
def dbMulti : String → Option ReviewRecord := fun id =>
  if id = "5" then some ⟨"open", "s5", ["1", "2"]⟩
  else none

/-- Concrete metadata service in which review 1 depends on itself. -/
def dbSelfCycle : String → Option ReviewRecord := fun id =>
  if id = "1" then some ⟨"open", "s1", ["1"]⟩
  else none

/-- C1: on a linear chain of N open reviews with no submitted ancestor and
at most one parent each, `review_chain` on the tip returns exactly the N
chain entries, oldest ancestor first, the requested review last, each id
exactly once (any fuel of at least the chain length suffices; the Python
recursion is unbounded). -/
theorem review_chain_resolves_chain (db : String → Option ReviewRecord)
    (id : String) (l : List (String × String)) (fuel : Nat)
    (hc : IsChain db id l) (hf : l.length ≤ fuel) :
    review_chain db fuel id = .ok l ∧ (l.map Prod.fst).Nodup ∧
      (l.map Prod.fst).getLast? = some id := by
  induction hc generalizing fuel with
  | root rid r hdb hst hdep =>
    cases fuel with
    | zero => simp at hf
    | succ f =>
      refine ⟨?_, by simp, by simp⟩
      simp [review_chain, hdb, hst, hdep]
  | step rid p r l hl hdb hst hdep hnew ih =>
    cases fuel with
    | zero => simp at hf
    | succ f =>
      have hlen : l.length ≤ f := by
        simp only [List.length_append, List.length_cons, List.length_nil] at hf
        omega
      obtain ⟨h1, h2, h3⟩ := ih f hlen
      have hpair : (rid, r.summary) ∉ l := fun hm => hnew (List.mem_map_of_mem Prod.fst hm)
      refine ⟨?_, ?_, ?_⟩
      · simp [review_chain, hdb, hst, hdep, h1, hpair]
      · simp only [List.map_append, List.map_cons, List.map_nil]
        rw [List.nodup_append]
        exact ⟨h2, List.nodup_singleton _, by
          intro a ha hb
          simp only [List.mem_singleton] at hb
          exact hnew (hb ▸ ha)⟩
      · simp [List.getLast?_concat]

/-- Witness for C1 at the concrete three-review chain 100 <- 101 <- 102. -/
theorem review_chain_resolves_chain_witness :
    IsChain dbChain3 "102" [("100", "s100"), ("101", "s101"), ("102", "s102")] ∧
      (review_chain dbChain3 3 "102" =
        .ok [("100", "s100"), ("101", "s101"), ("102", "s102")] ∧
        ([("100", "s100"), ("101", "s101"), ("102", "s102")].map Prod.fst).Nodup ∧
        ([("100", "s100"), ("101", "s101"), ("102", "s102")].map Prod.fst).getLast? =
          some "102") := by
  have hroot : IsChain dbChain3 "100" [("100", "s100")] :=
    IsChain.root "100" ⟨"open", "s100", []⟩ rfl rfl rfl
  have h101 : IsChain dbChain3 "101" [("100", "s100"), ("101", "s101")] :=
    IsChain.step "101" "100" ⟨"open", "s101", ["100"]⟩ [("100", "s100")]
      hroot rfl rfl rfl (by decide)
  have h102 : IsChain dbChain3 "102"
      [("100", "s100"), ("101", "s101"), ("102", "s102")] :=
    IsChain.step "102" "101" ⟨"open", "s102", ["101"]⟩
      [("100", "s100"), ("101", "s101")] h101 rfl rfl rfl (by decide)
  exact ⟨h102, review_chain_resolves_chain dbChain3 "102" _ 3 h102 (by decide)⟩

/-- C3: reaching a review whose status is `submitted` yields the empty
chain, so that review and everything older is excluded; in particular a
review that depends on a submitted parent resolves to just its own entry. -/
theorem review_chain_stops_at_submitted (db : String → Option ReviewRecord)
    (fuel : Nat) (id p : String) (r rp : ReviewRecord)
    (hdb : db id = some r) (hst : r.status ≠ "submitted") (hdep : r.dependsOn = [p])
    (hp : db p = some rp) (hsub : rp.status = "submitted") :
    review_chain db (fuel+1) p = .ok [] ∧
      review_chain db (fuel+2) id = .ok [(id, r.summary)] := by
  have h1 : review_chain db (fuel+1) p = .ok [] := by
    simp [review_chain, hp, hsub]
  refine ⟨h1, ?_⟩
  rw [show fuel + 2 = (fuel + 1) + 1 from rfl, review_chain_succ, hdb]
  simp [hst, hdep, h1]

/-- Witness for C3: review 102 depends on submitted 101. -/
theorem review_chain_stops_at_submitted_witness :
    dbSubmitted "102" = some ⟨"open", "s102", ["101"]⟩ ∧
      (review_chain dbSubmitted 1 "101" = .ok [] ∧
        review_chain dbSubmitted 2 "102" = .ok [("102", "s102")]) := by
  refine ⟨rfl, ?_⟩
  exact review_chain_stops_at_submitted dbSubmitted 0 "102" "101"
    ⟨"open", "s102", ["101"]⟩ ⟨"submitted", "s101", []⟩
    rfl (by decide) rfl rfl rfl

/-- C4: a review whose record lists more than one parent makes
`review_chain` fail with the multi-parent diagnostic naming that review
(`multiParent id` models the stderr message naming `id` followed by
`sys.exit(1)`); no chain is returned. -/
theorem review_chain_multi_parent (db : String → Option ReviewRecord)
    (fuel : Nat) (id : String) (r : ReviewRecord) (p1 p2 : String) (rest : List String)
    (hdb : db id = some r) (hst : r.status ≠ "submitted")
    (hdep : r.dependsOn = p1 :: p2 :: rest) :
    review_chain db (fuel+1) id = .multiParent id := by
  simp [review_chain, hdb, hst, hdep]

/-- Witness for C4: review 5 lists the two parents 1 and 2. -/
theorem review_chain_multi_parent_witness :
    dbMulti "5" = some ⟨"open", "s5", ["1", "2"]⟩ ∧
      review_chain dbMulti 1 "5" = .multiParent "5" := by
  refine ⟨rfl, ?_⟩
  exact review_chain_multi_parent dbMulti 0 "5" ⟨"open", "s5", ["1", "2"]⟩
    "1" "2" [] rfl (by decide) rfl

/-- Reduction of `review_chain` when the review cannot be fetched. -/
theorem review_chain_step_none (db : String → Option ReviewRecord) (fuel : Nat)
    (id : String) (hdb : db id = none) :
    review_chain db (fuel+1) id = .fetchFail id := by
  rw [review_chain_succ, hdb]

/-- Reduction of `review_chain` at a submitted review. -/
theorem review_chain_step_submitted (db : String → Option ReviewRecord) (fuel : Nat)
    (id : String) (r : ReviewRecord) (hdb : db id = some r)
    (hst : r.status = "submitted") :
    review_chain db (fuel+1) id = .ok [] := by
  rw [review_chain_succ, hdb]
  simp [hst]

/-- Reduction of `review_chain` at an unsubmitted review with no parent. -/
theorem review_chain_step_root (db : String → Option ReviewRecord) (fuel : Nat)
    (id : String) (r : ReviewRecord) (hdb : db id = some r)
    (hst : r.status ≠ "submitted") (hdep : r.dependsOn = []) :
    review_chain db (fuel+1) id = .ok [(id, r.summary)] := by
  rw [review_chain_succ, hdb]
  simp [hst, hdep]

/-- Reduction of `review_chain` at an unsubmitted review with one parent. -/
theorem review_chain_step_one (db : String → Option ReviewRecord) (fuel : Nat)
    (id : String) (r : ReviewRecord) (p : String) (hdb : db id = some r)
    (hst : r.status ≠ "submitted") (hdep : r.dependsOn = [p]) :
    review_chain db (fuel+1) id =
      match review_chain db fuel p with
      | .ok l =>
        if (id, r.summary) ∈ l then .cycle id
        else .ok (l ++ [(id, r.summary)])
      | e => e := by
  rw [review_chain_succ, hdb]
  simp [hst, hdep]

/-- Reduction of `review_chain` at a review with at least two parents. -/
theorem review_chain_step_multi (db : String → Option ReviewRecord) (fuel : Nat)
    (id : String) (r : ReviewRecord) (p q : String) (rest : List String)
    (hdb : db id = some r) (hst : r.status ≠ "submitted")
    (hdep : r.dependsOn = p :: q :: rest) :
    review_chain db (fuel+1) id = .multiParent id := by
  rw [review_chain_succ, hdb]
  simp [hst, hdep]

/-- Fuel monotonicity: a successful resolution is stable under more fuel. -/
theorem review_chain_mono (db : String → Option ReviewRecord) :
    ∀ (fuel fuel2 : Nat) (id : String) (l : List (String × String)),
      fuel ≤ fuel2 → review_chain db fuel id = .ok l →
      review_chain db fuel2 id = .ok l := by
  intro fuel
  induction fuel with
  | zero =>
    intro fuel2 id l hle h
    simp [review_chain] at h
  | succ f ih =>
    intro fuel2 id l hle h
    obtain ⟨f2, rfl⟩ : ∃ f2, fuel2 = f2 + 1 := ⟨fuel2 - 1, by omega⟩
    have hf2 : f ≤ f2 := by omega
    cases hdb : db id with
    | none =>
      rw [review_chain_step_none db f id hdb] at h
      exact absurd h (by simp)
    | some r =>
      by_cases hst : r.status = "submitted"
      · rw [review_chain_step_submitted db f id r hdb hst] at h
        rw [review_chain_step_submitted db f2 id r hdb hst]
        exact h
      · cases hdep : r.dependsOn with
        | nil =>
          rw [review_chain_step_root db f id r hdb hst hdep] at h
          rw [review_chain_step_root db f2 id r hdb hst hdep]
          exact h
        | cons p ps =>
          cases ps with
          | nil =>
            rw [review_chain_step_one db f id r p hdb hst hdep] at h
            rw [review_chain_step_one db f2 id r p hdb hst hdep]
            cases hin : review_chain db f p with
            | ok l0 =>
              rw [hin] at h
              rw [ih f2 p l0 hf2 hin]
              simpa using h
            | multiParent e => rw [hin] at h; simp at h
            | cycle e => rw [hin] at h; simp at h
            | fetchFail e => rw [hin] at h; simp at h
            | outOfFuel => rw [hin] at h; simp at h
          | cons q qs =>
            rw [review_chain_step_multi db f id r p q qs hdb hst hdep] at h
            exact absurd h (by simp)

/-- Every entry of a successfully resolved chain is itself resolvable:
each listed review id admits a successful `review_chain` run within the
same fuel bound. -/
theorem review_chain_mem_resolvable (db : String → Option ReviewRecord) :
    ∀ (fuel : Nat) (id : String) (l : List (String × String)),
      review_chain db fuel id = .ok l →
      ∀ x s, (x, s) ∈ l → ∃ g m, g ≤ fuel ∧ review_chain db g x = .ok m := by
  intro fuel
  induction fuel with
  | zero =>
    intro id l h
    simp [review_chain] at h
  | succ f ih =>
    intro id l h x s hm
    cases hdb : db id with
    | none =>
      rw [review_chain_step_none db f id hdb] at h
      exact absurd h (by simp)
    | some r =>
      by_cases hst : r.status = "submitted"
      · rw [review_chain_step_submitted db f id r hdb hst] at h
        obtain rfl : l = [] := by simpa using h.symm
        simp at hm
      · cases hdep : r.dependsOn with
        | nil =>
          rw [review_chain_step_root db f id r hdb hst hdep] at h
          obtain rfl : l = [(id, r.summary)] := by simpa using h.symm
          simp only [List.mem_singleton, Prod.mk.injEq] at hm
          obtain ⟨hx, hs⟩ := hm
          refine ⟨f + 1, [(id, r.summary)], le_refl _, ?_⟩
          rw [hx]
          exact review_chain_step_root db f id r hdb hst hdep
        | cons p ps =>
          cases ps with
          | nil =>
            rw [review_chain_step_one db f id r p hdb hst hdep] at h
            cases hin : review_chain db f p with
            | ok l0 =>
              rw [hin] at h
              by_cases hmem : (id, r.summary) ∈ l0
              · simp [hmem] at h
              · simp only [hmem, if_false] at h
                obtain rfl : l = l0 ++ [(id, r.summary)] := by simpa using h.symm
                rcases List.mem_append.mp hm with hl0 | hlast
                · obtain ⟨g, m, hg, hgx⟩ := ih p l0 hin x s hl0
                  exact ⟨g, m, Nat.le_succ_of_le hg, hgx⟩
                · simp only [List.mem_singleton, Prod.mk.injEq] at hlast
                  obtain ⟨hx, hs⟩ := hlast
                  refine ⟨f + 1, l0 ++ [(id, r.summary)], le_refl _, ?_⟩
                  rw [hx, review_chain_step_one db f id r p hdb hst hdep, hin]
                  simp [hmem]
            | multiParent e => rw [hin] at h; simp at h
            | cycle e => rw [hin] at h; simp at h
            | fetchFail e => rw [hin] at h; simp at h
            | outOfFuel => rw [hin] at h; simp at h
          | cons q qs =>
            rw [review_chain_step_multi db f id r p q qs hdb hst hdep] at h
            exact absurd h (by simp)

/-- The circular-dependency branch of `review_chain` is unreachable: for a
deterministic metadata service no run, with any fuel, ever produces the
`cycle` outcome.  If the resolved sub-chain of the single parent contained
the current entry, the recursive resolution of that parent would itself
have had to revisit the current review and could not have returned. -/
theorem review_chain_never_cycle (db : String → Option ReviewRecord) :
    ∀ (fuel : Nat) (id : String), isCycleErr (review_chain db fuel id) = false := by
  intro fuel
  induction fuel with
  | zero => intro id; simp [review_chain, isCycleErr]
  | succ f ih =>
    intro id
    cases hdb : db id with
    | none => simp [review_chain_step_none db f id hdb, isCycleErr]
    | some r =>
      by_cases hst : r.status = "submitted"
      · simp [review_chain_step_submitted db f id r hdb hst, isCycleErr]
      · cases hdep : r.dependsOn with
        | nil => simp [review_chain_step_root db f id r hdb hst hdep, isCycleErr]
        | cons p ps =>
          cases ps with
          | nil =>
            rw [review_chain_step_one db f id r p hdb hst hdep]
            cases hin : review_chain db f p with
            | ok l0 =>
              by_cases hmem : (id, r.summary) ∈ l0
              · exfalso
                obtain ⟨g, m, hg, hgx⟩ :=
                  review_chain_mem_resolvable db f p l0 hin id r.summary hmem
                obtain ⟨g2, rfl⟩ : ∃ g2, g = g2 + 1 := by
                  cases g with
                  | zero => simp [review_chain] at hgx
                  | succ g2 => exact ⟨g2, rfl⟩
                rw [review_chain_step_one db g2 id r p hdb hst hdep] at hgx
                cases hin2 : review_chain db g2 p with
                | ok l2 =>
                  rw [hin2] at hgx
                  have hl2 : review_chain db f p = .ok l2 :=
                    review_chain_mono db g2 f p l2 (by omega) hin2
                  rw [hin] at hl2
                  obtain rfl : l0 = l2 := by simpa using hl2
                  simp [hmem] at hgx
                | multiParent e => rw [hin2] at hgx; simp at hgx
                | cycle e => rw [hin2] at hgx; simp at hgx
                | fetchFail e => rw [hin2] at hgx; simp at hgx
                | outOfFuel => rw [hin2] at hgx; simp at hgx
              · simp [hmem, isCycleErr]
            | multiParent e => simp [isCycleErr]
            | cycle e =>
              have hcp := ih p
              rw [hin] at hcp
              simp [isCycleErr] at hcp
            | fetchFail e => simp [isCycleErr]
            | outOfFuel => simp [isCycleErr]
          | cons q qs =>
            simp [review_chain_step_multi db f id r p q qs hdb hst hdep, isCycleErr]

/-- C2 (refuting the claimed behaviour): on the self-cycle input, review 1
depending on itself, `review_chain` exhausts every recursion budget
instead of reporting the circular-dependency error (in Python the
recursion runs until the interpreter recursion limit kills it), and no
input at all ever produces the `cycle` outcome: the duplicate check runs
only after the recursive call has returned, which on a cyclic graph it
never does. -/
theorem review_chain_cycle_diverges :
    (∀ fuel : Nat, review_chain dbSelfCycle fuel "1" = .outOfFuel) ∧
      (∀ (db : String → Option ReviewRecord) (fuel : Nat) (id : String),
        isCycleErr (review_chain db fuel id) = false) := by
  constructor
  · intro fuel
    induction fuel with
    | zero => rfl
    | succ f ih =>
      rw [review_chain_step_one dbSelfCycle f "1" ⟨"open", "s1", ["1"]⟩ "1"
        rfl (by decide) rfl, ih]
  · intro db fuel id
    exact review_chain_never_cycle db fuel id

/-- The global `options` dictionary populated by `parse_options`:
the mutually exclusive review id and pull request number (absent entries
are `none`, matching the `None` stored by argparse), and the two flags. -/
structure Options where
  review_id : Option String
  github : Option String
  dry_run : Bool
  no_amend : Bool
deriving DecidableEq

/-- `patch_id()`: `options[review_id] or options[github]`; when both are
absent Python would format `None` into the file name. -/
def patch_id (o : Options) : String :=
  match o.review_id with
  | some r => r
  | none =>
    match o.github with
    | some g => g
    | none => "None"

/-- An observable shell action of the script: a command actually executed
by `subprocess.call`, or a command only printed because of dry-run mode.
Execution failures terminate the whole run with the command exit status;
the trace records the action requested. -/
inductive Event where
  | exec (cmd : String)
  | printed (cmd : String)
deriving DecidableEq

/-- `shell(command, dry_run)`: print the command in dry-run mode,
otherwise execute it. -/
def shell (cmd : String) (dry : Bool) : Event :=
  if dry then .printed cmd else .exec cmd

/-- True when the event is an actual execution, false for a dry-run
report. -/
def isExec : Event → Bool
  | .exec _ => true
  | .printed _ => false

def REVIEWBOARD_REVIEW_URL : String := "https://reviews.apache.org/r"

def GITHUB_URL : String := "https://api.github.com/repos/apache/mesos/pulls"

def GITHUB_PATCH_URL : String :=
  "https://patch-diff.githubusercontent.com/raw/apache/mesos/pull"

/-- `review_url(review_id)`: the human-facing review URL. -/
def review_url (review_id : String) : String :=
  REVIEWBOARD_REVIEW_URL ++ "/" ++ review_id ++ "/"

/-- `patch_url()`: raw patch location for the selected backend. -/
def patch_url (o : Options) : String :=
  match o.review_id with
  | some r => REVIEWBOARD_REVIEW_URL ++ "/" ++ r ++ "/diff/raw/"
  | none =>
    match o.github with
    | some g => GITHUB_PATCH_URL ++ "/" ++ g ++ ".patch"
    | none => "None"

/-- `fetch_patch()`: download the patch with wget; for the github backend
the dry-run flag is deliberately ignored (the patch is also the only
source of the author identity), for the review-tracking backend the
command respects dry-run. -/
def fetch_patch (o : Options) : Event :=
  let cmd := "wget --no-check-certificate --no-verbose -O " ++ patch_id o
    ++ ".patch " ++ patch_url o
  if o.github.isSome then shell cmd false else shell cmd o.dry_run

/-- `remove_patch(file_name)`: remove the given file, or the file derived
from `patch_id()` when no name is passed; like the fetch, the github
backend ignores the dry-run flag so the always-downloaded patch always
gets cleaned up. -/
def remove_patch (file_name : Option String) (o : Options) : Event :=
  let cmd :=
    match file_name with
    | none => "rm -f " ++ patch_id o ++ ".patch"
    | some f => "rm -f " ++ f
  if o.github.isSome then shell cmd false else shell cmd o.dry_run

/-- `apply_patch()`: apply and stage the patch. -/
def apply_patch (o : Options) : Event :=
  shell ("git apply --index " ++ patch_id o ++ ".patch") o.dry_run

/-- The single-quote character (U+0027). -/
def squote : Char := Char.ofNat 39

/-- The backslash character (U+005C). -/
def bslash : Char := Char.ofNat 92

/-- The space character (U+0020). -/
def spaceChar : Char := Char.ofNat 32

/-- Replacement performed on one character by `quote`: a single quote
becomes the four characters quote, backslash, quote, quote; everything
else stays. -/
def quoteChar (c : Char) : List Char :=
  if c = squote then [squote, bslash, squote, squote] else [c]

/-- Character-list version of the replacement done by `quote`. -/
def quoteL : List Char → List Char
  | [] => []
  | c :: cs => quoteChar c ++ quoteL cs

/-- `quote(string)`: replace every single quote in the string by the
sequence quote backslash quote quote, so the result can stand inside a
single-quoted shell argument. -/
def quote (s : String) : String := String.mk (quoteL s.data)

/-- A single-quote as a one-character string, used to assemble the git
commit command the way the Python format string does. -/
def squoteStr : String := String.singleton squote

/-- The review data dictionary built by `patch_data()` for one review:
summary, description, canonical URL, author, and the commit message. -/
structure PatchData where
  summary : String
  description : String
  url : String
  author : String
  message : String
deriving DecidableEq

/-- The git commit command assembled by `commit_patch()`: author and
message pass through `quote` and are embedded in single-quoted arguments;
the `-e` flag is dropped when amending is disabled. -/
def commit_cmd (data : PatchData) (o : Options) : String :=
  "git commit --author " ++ squoteStr ++ quote data.author ++ squoteStr
    ++ " " ++ (if o.no_amend then "" else "-e") ++ " -am "
    ++ squoteStr ++ quote data.message ++ squoteStr

/-- `commit_patch()`: run the assembled git commit command through
`shell`, honouring dry-run. -/
def commit_patch (data : PatchData) (o : Options) : Event :=
  shell (commit_cmd data o) o.dry_run

/-- Process state threaded through the protocol: the global mutable
`options` dictionary, the stack of registered atexit handlers (most
recently registered first, the order atexit runs them), and the trace of
shell actions so far.  A handler is modelled as a function of the options
in force when the process exits, because the registered lambda reads the
global `options` through `patch_id()` only when it is finally invoked. -/
structure PState where
  opts : Options
  handlers : List (Options → Event)
  events : List Event

/-- The atexit handler registered by `apply_review`:
`lambda: remove_patch({file}.patch.format(file=patch_id()))`, reading the
global options at invocation time. -/
def cleanup_handler : Options → Event :=
  fun o => remove_patch (some (patch_id o ++ ".patch")) o

/-- Registration step of `apply_review`: push the cleanup handler; no
shell action is taken. -/
def register_cleanup (s : PState) : PState :=
  { s with handlers := cleanup_handler :: s.handlers }

/-- Fetch step of `apply_review`. -/
def do_fetch (s : PState) : PState :=
  { s with events := s.events ++ [fetch_patch s.opts] }

/-- Apply step of `apply_review`. -/
def do_apply (s : PState) : PState :=
  { s with events := s.events ++ [apply_patch s.opts] }

/-- Commit step of `apply_review`, parameterised by the review data that
`patch_data()` fetched for the current review. -/
def do_commit (data : PatchData) (s : PState) : PState :=
  { s with events := s.events ++ [commit_patch data s.opts] }

/-- Inline cleanup step at the end of `apply_review`. -/
def do_remove (s : PState) : PState :=
  { s with events := s.events ++ [remove_patch none s.opts] }

/-- `apply_review()`: register the cleanup handler first, then fetch,
apply, commit, and remove the patch, in that order. -/
def apply_review (data : PatchData) (s : PState) : PState :=
  do_remove (do_commit data (do_apply (do_fetch (register_cleanup s))))

/-- The shell actions the registered atexit handlers take when the
process exits in state `s`: every handler runs exactly once, reading the
options in force at exit time. -/
def run_at_exit (s : PState) : List Event :=
  s.handlers.map (fun h => h s.opts)

/-- The assignment `options[review_id] = review_id` in the driver loop. -/
def set_review_id (o : Options) (rid : String) : Options :=
  { o with review_id := some rid }

/-- The driver loop of `reviewboard()` over the resolved chain entries:
skip entries whose id is already in the applied set, otherwise record the
id as applied, point the global options at it, and run `apply_review`.
`dataOf` supplies the review data `patch_data()` would fetch for each id.
The second component of the result lists, in order, the review ids for
which `apply_review` was actually invoked. -/
def reviewboard_loop (dataOf : String → PatchData) :
    List (String × String) → List String → PState → PState × List String
  | [], _, s => (s, [])
  | (rid, _) :: rest, applied, s =>
    if rid ∈ applied then reviewboard_loop dataOf rest applied s
    else
      let s2 := apply_review (dataOf rid) { s with opts := set_review_id s.opts rid }
      let res := reviewboard_loop dataOf rest (rid :: applied) s2
      (res.1, rid :: res.2)

/-- Unfolding of the driver loop when the id was already applied. -/
theorem reviewboard_loop_cons_skip (dataOf : String → PatchData) (rid summ : String)
    (rest : List (String × String)) (applied : List String) (s : PState)
    (h : rid ∈ applied) :
    reviewboard_loop dataOf ((rid, summ) :: rest) applied s =
      reviewboard_loop dataOf rest applied s := by
  simp [reviewboard_loop, h]

/-- Unfolding of the driver loop when the id is fresh. -/
theorem reviewboard_loop_cons_apply (dataOf : String → PatchData) (rid summ : String)
    (rest : List (String × String)) (applied : List String) (s : PState)
    (h : rid ∉ applied) :
    reviewboard_loop dataOf ((rid, summ) :: rest) applied s =
      ((reviewboard_loop dataOf rest (rid :: applied)
          (apply_review (dataOf rid) { s with opts := set_review_id s.opts rid })).1,
        rid :: (reviewboard_loop dataOf rest (rid :: applied)
          (apply_review (dataOf rid) { s with opts := set_review_id s.opts rid })).2) := by
  simp [reviewboard_loop, h]

/-- Every id the driver loop actually applies was not in the applied set
the loop started from. -/
theorem reviewboard_loop_fresh (dataOf : String → PatchData) :
    ∀ (reviews : List (String × String)) (applied : List String) (s : PState)
      (x : String),
      x ∈ (reviewboard_loop dataOf reviews applied s).2 → x ∉ applied := by
  intro reviews
  induction reviews with
  | nil => intro applied s x hx; simp [reviewboard_loop] at hx
  | cons hd rest ih =>
    intro applied s x hx
    obtain ⟨rid, summ⟩ := hd
    by_cases hmem : rid ∈ applied
    · rw [reviewboard_loop_cons_skip dataOf rid summ rest applied s hmem] at hx
      exact ih applied s x hx
    · rw [reviewboard_loop_cons_apply dataOf rid summ rest applied s hmem] at hx
      rcases List.mem_cons.mp hx with rfl | htail
      · exact hmem
      · have hni := ih (rid :: applied) _ x htail
        intro hxa
        exact hni (List.mem_cons_of_mem _ hxa)

/-- The sequence of ids the driver loop applies contains no duplicates. -/
theorem reviewboard_loop_nodup (dataOf : String → PatchData) :
    ∀ (reviews : List (String × String)) (applied : List String) (s : PState),
      ((reviewboard_loop dataOf reviews applied s).2).Nodup := by
  intro reviews
  induction reviews with
  | nil => intro applied s; simp [reviewboard_loop]
  | cons hd rest ih =>
    intro applied s
    obtain ⟨rid, summ⟩ := hd
    by_cases hmem : rid ∈ applied
    · rw [reviewboard_loop_cons_skip dataOf rid summ rest applied s hmem]
      exact ih applied s
    · rw [reviewboard_loop_cons_apply dataOf rid summ rest applied s hmem]
      refine List.nodup_cons.mpr ⟨?_, ih _ _⟩
      intro hc
      exact (reviewboard_loop_fresh dataOf rest (rid :: applied) _ rid hc)
        (List.mem_cons_self _ _)

/-- C8: within one run the driver applies each review id at most once:
the sequence of applied ids is duplicate-free, and an id already present
in the accumulated applied set is skipped, never re-applied. -/
theorem driver_applies_each_id_once (dataOf : String → PatchData)
    (reviews : List (String × String)) (applied : List String) (s : PState)
    (rid : String) (h : rid ∈ applied) :
    ((reviewboard_loop dataOf reviews applied s).2).Nodup ∧
      rid ∉ (reviewboard_loop dataOf reviews applied s).2 := by
  refine ⟨reviewboard_loop_nodup dataOf reviews applied s, ?_⟩
  intro hc
  exact (reviewboard_loop_fresh dataOf reviews applied s rid hc) h

/-- Review data with empty fields, standing in for fetched metadata in
concrete runs. -/
def dataOfNull : String → PatchData := fun _ => ⟨"", "", "", "", ""⟩

/-- An initial process state with no options selected. -/
def pstate0 : PState := ⟨⟨none, none, false, false⟩, [], []⟩

/-- Witness for C8 on the concrete chain entries 1, 2, 1 with the id 0
already applied. -/
theorem driver_applies_each_id_once_witness :
    "0" ∈ ["0"] ∧
      ((((reviewboard_loop dataOfNull [("1", "a"), ("2", "b"), ("1", "c")]
          ["0"] pstate0).2).Nodup) ∧
        "0" ∉ (reviewboard_loop dataOfNull [("1", "a"), ("2", "b"), ("1", "c")]
          ["0"] pstate0).2) :=
  ⟨by decide, driver_applies_each_id_once dataOfNull
    [("1", "a"), ("2", "b"), ("1", "c")] ["0"] pstate0 "0" (by decide)⟩

/-- C10: after the driver loop processes two distinct reviews, both
registered atexit handlers read the global options as they are at process
exit, so both remove the patch file named after the last review
processed.  The options still name the last review, one handler was
registered per review, and each exit action is the removal of the last
review id dot patch. -/
theorem cleanup_reads_options_at_exit (dataOf : String → PatchData)
    (r1 r2 s1 s2 : String) (h : r1 ≠ r2) :
    (((reviewboard_loop dataOf [(r1, s1), (r2, s2)] []
        ⟨⟨some r1, none, false, false⟩, [], []⟩).1).opts.review_id = some r2) ∧
      (((reviewboard_loop dataOf [(r1, s1), (r2, s2)] []
        ⟨⟨some r1, none, false, false⟩, [], []⟩).1).handlers.length = 2) ∧
      run_at_exit ((reviewboard_loop dataOf [(r1, s1), (r2, s2)] []
        ⟨⟨some r1, none, false, false⟩, [], []⟩).1) =
        [.exec ("rm -f " ++ (r2 ++ ".patch")),
          .exec ("rm -f " ++ (r2 ++ ".patch"))] := by
  have h2 : r2 ∉ [r1] := by
    simp only [List.mem_singleton]
    exact fun he => h he.symm
  rw [reviewboard_loop_cons_apply dataOf r1 s1 [(r2, s2)] []
    ⟨⟨some r1, none, false, false⟩, [], []⟩ (by simp)]
  rw [reviewboard_loop_cons_apply dataOf r2 s2 [] (r1 :: []) _ h2]
  simp [reviewboard_loop, apply_review, do_remove, do_commit, do_apply,
    do_fetch, register_cleanup, set_review_id, run_at_exit, cleanup_handler,
    remove_patch, patch_id, shell]

/-- Witness for C10 with the concrete reviews 1 and 2. -/
theorem cleanup_reads_options_at_exit_witness :
    "1" ≠ "2" ∧
      ((((reviewboard_loop dataOfNull [("1", "a"), ("2", "b")] []
          ⟨⟨some "1", none, false, false⟩, [], []⟩).1).opts.review_id = some "2") ∧
        (((reviewboard_loop dataOfNull [("1", "a"), ("2", "b")] []
          ⟨⟨some "1", none, false, false⟩, [], []⟩).1).handlers.length = 2) ∧
        run_at_exit ((reviewboard_loop dataOfNull [("1", "a"), ("2", "b")] []
          ⟨⟨some "1", none, false, false⟩, [], []⟩).1) =
          [.exec ("rm -f " ++ ("2" ++ ".patch")),
            .exec ("rm -f " ++ ("2" ++ ".patch"))]) :=
  ⟨by decide, cleanup_reads_options_at_exit dataOfNull "1" "2" "a" "b" (by decide)⟩

/-- C5 counterexample: in a run over the two reviews 1 and 2, the exit
handlers remove 2.patch twice and no exit handler ever removes 1.patch,
although one of the two handlers was registered while review 1 was being
processed. -/
theorem cleanup_wrong_file_counterexample :
    run_at_exit ((reviewboard_loop dataOfNull [("1", "a"), ("2", "b")] []
        ⟨⟨some "1", none, false, false⟩, [], []⟩).1) =
      [.exec "rm -f 2.patch", .exec "rm -f 2.patch"] ∧
      Event.exec "rm -f 1.patch" ∉
        run_at_exit ((reviewboard_loop dataOfNull [("1", "a"), ("2", "b")] []
          ⟨⟨some "1", none, false, false⟩, [], []⟩).1) := by
  decide

/-- C5 as amended: `apply_review` registers exactly one cleanup handler,
before any shell action of the fetch, apply, commit, remove sequence is
taken, and at process exit each registered handler runs exactly once; but
the file the handler removes is computed from the options in force at
exit time, not from the review for which it was registered. -/
theorem cleanup_registered_before_fetch (data : PatchData) (s : PState) (o : Options) :
    (apply_review data s).handlers = cleanup_handler :: s.handlers ∧
      (register_cleanup s).events = s.events ∧
      (register_cleanup s).opts = s.opts ∧
      (apply_review data s).events = s.events ++
        [fetch_patch s.opts, apply_patch s.opts, commit_patch data s.opts,
          remove_patch none s.opts] ∧
      run_at_exit ⟨o, (apply_review data s).handlers, []⟩ =
        remove_patch (some (patch_id o ++ ".patch")) o ::
          run_at_exit ⟨o, s.handlers, []⟩ := by
  refine ⟨rfl, rfl, rfl, ?_, rfl⟩
  simp [apply_review, do_remove, do_commit, do_apply, do_fetch,
    register_cleanup, List.append_assoc]

/-- C6: with dry-run enabled the review-tracking backend only prints the
fetch, apply, commit, and cleanup commands (inline removal and exit
handler alike), while the github backend executes the fetch and both
removals unconditionally, printing only the apply and commit. -/
theorem dry_run_asymmetry (data : PatchData) (r g : String) (na : Bool) :
    isExec (fetch_patch (Options.mk (some r) none true na)) = false ∧
      isExec (apply_patch (Options.mk (some r) none true na)) = false ∧
      isExec (commit_patch data (Options.mk (some r) none true na)) = false ∧
      isExec (remove_patch none (Options.mk (some r) none true na)) = false ∧
      isExec (cleanup_handler (Options.mk (some r) none true na)) = false ∧
      isExec (fetch_patch (Options.mk none (some g) true na)) = true ∧
      isExec (apply_patch (Options.mk none (some g) true na)) = false ∧
      isExec (commit_patch data (Options.mk none (some g) true na)) = false ∧
      isExec (remove_patch none (Options.mk none (some g) true na)) = true ∧
      isExec (cleanup_handler (Options.mk none (some g) true na)) = true :=
  ⟨rfl, rfl, rfl, rfl, rfl, rfl, rfl, rfl, rfl, rfl⟩

/-- Pure assembly of `github_data()` (lines 212-235) given the fetched
pull request title and body, the pull request number, and the author read
from the downloaded patch file. -/
def github_data (title body pr author : String) : PatchData :=
  { summary := title
    description := body
    url := GITHUB_URL ++ "/" ++ pr
    author := author
    message := title ++ "\n\n" ++ body ++ "\n\n" ++ ("This closes: " ++ pr) }

/-- Pure assembly of `reviewboard_data()` (lines 238-268) given the
fetched review summary and description, the review id, and the resolved
submitter full name and email. -/
def reviewboard_data (summary description review_id fullname email : String) :
    PatchData :=
  { summary := summary
    description := description
    url := review_url review_id
    author := fullname ++ " <" ++ email ++ ">"
    message := summary ++ "\n\n" ++ description ++ "\n\n"
      ++ ("Review: " ++ review_url review_id) }

/-- C7: the commit message is the three parts joined by blank lines: for
the pull request backend title, body, then the closing line with the pull
request number; for the review-tracking backend summary, description,
then the Review line with the canonical review URL. -/
theorem commit_message_assembly :
    (github_data "Fix bug" "Details" "42" "A <a@b>").message =
      "Fix bug\n\nDetails\n\nThis closes: 42" ∧
      (reviewboard_data "Fix bug" "Details" "123" "Jane Doe"
        "jane@example.org").message =
        "Fix bug\n\nDetails\n\nReview: https://reviews.apache.org/r/123/" := by
  constructor <;> rfl

/-- A character a command word may contain bare, outside quotes: neither
a space, nor a single quote, nor a backslash. -/
def plainChar (c : Char) : Bool :=
  !(c = spaceChar || c = squote || c = bslash)

/-- POSIX-style word splitting for the fragment of shell syntax the git
commands of the script use.  The state is whether scanning is inside a
single-quoted region, together with the word accumulated so far (`none`
when no word has started).  Outside quotes a space ends the current word,
a single quote opens a quoted region, and a backslash makes the next
character literal; inside quotes every character up to the closing quote
is literal.  The result is `none` for broken quoting: an unterminated
quoted region or a trailing backslash. -/
def shell_words : Bool → Option (List Char) → List Char → Option (List (List Char))
  | false, none, [] => some []
  | false, some w, [] => some [w]
  | true, _, [] => none
  | false, acc, c :: cs =>
    if c = spaceChar then
      match acc with
      | none => shell_words false none cs
      | some w => (shell_words false none cs).map (fun ws => w :: ws)
    else if c = squote then shell_words true (some (acc.getD [])) cs
    else if c = bslash then
      match cs with
      | [] => none
      | d :: cs2 => shell_words false (some (acc.getD [] ++ [d])) cs2
    else shell_words false (some (acc.getD [] ++ [c])) cs
  | true, acc, c :: cs =>
    if c = squote then shell_words false acc cs
    else shell_words true (some (acc.getD [] ++ [c])) cs

/-- The argument words a shell would hand to the executed program for the
given command line. -/
def shell_argv (cmd : String) : Option (List String) :=
  (shell_words false none cmd.data).map (fun ws => ws.map String.mk)

theorem sw_space_none (cs : List Char) :
    shell_words false none (spaceChar :: cs) = shell_words false none cs := by
  rw [shell_words.eq_def]
  simp

theorem sw_space_some (w : List Char) (cs : List Char) :
    shell_words false (some w) (spaceChar :: cs) =
      (shell_words false none cs).map (fun ws => w :: ws) := by
  rw [shell_words.eq_def]
  simp

theorem sw_enter_quote (acc : Option (List Char)) (cs : List Char) :
    shell_words false acc (squote :: cs) =
      shell_words true (some (acc.getD [])) cs := by
  rw [shell_words.eq_def]
  simp [show squote ≠ spaceChar from by decide]

theorem sw_bslash (acc : Option (List Char)) (d : Char) (cs : List Char) :
    shell_words false acc (bslash :: d :: cs) =
      shell_words false (some (acc.getD [] ++ [d])) cs := by
  rw [shell_words.eq_def]
  simp [show bslash ≠ spaceChar from by decide,
    show bslash ≠ squote from by decide]

theorem sw_plain (acc : Option (List Char)) (c : Char) (cs : List Char)
    (h1 : c ≠ spaceChar) (h2 : c ≠ squote) (h3 : c ≠ bslash) :
    shell_words false acc (c :: cs) =
      shell_words false (some (acc.getD [] ++ [c])) cs := by
  rw [shell_words.eq_def]
  simp [h1, h2, h3]

theorem sw_exit_quote (acc : Option (List Char)) (cs : List Char) :
    shell_words true acc (squote :: cs) = shell_words false acc cs := by
  rw [shell_words.eq_def]
  simp

theorem sw_in_quote (acc : Option (List Char)) (c : Char) (cs : List Char)
    (h : c ≠ squote) :
    shell_words true acc (c :: cs) =
      shell_words true (some (acc.getD [] ++ [c])) cs := by
  rw [shell_words.eq_def]
  simp [h]

/-- Scanning the quoted image of `cs` inside a quoted region appends `cs`
literally to the current word and ends just after the closing quote: the
escape sequence emitted by `quote` for a single quote re-creates exactly
one literal single quote. -/
theorem sw_quoted_run (cs : List Char) : ∀ (w : List Char) (rest : List Char),
    shell_words true (some w) (quoteL cs ++ squote :: rest) =
      shell_words false (some (w ++ cs)) rest := by
  induction cs with
  | nil => intro w rest; simp [quoteL, sw_exit_quote]
  | cons c cs ih =>
    intro w rest
    by_cases hc : c = squote
    · subst hc
      have hq : quoteL (squote :: cs) =
          squote :: bslash :: squote :: squote :: quoteL cs := by
        simp [quoteL, quoteChar]
      rw [hq]
      simp only [List.cons_append]
      rw [sw_exit_quote, sw_bslash, sw_enter_quote]
      simp only [Option.getD_some]
      rw [ih]
      simp
    · have hq : quoteL (c :: cs) = c :: quoteL cs := by
        simp [quoteL, quoteChar, hc]
      rw [hq]
      simp only [List.cons_append]
      rw [sw_in_quote (some w) c _ hc]
      simp only [Option.getD_some]
      rw [ih]
      simp

/-- Scanning a nonempty run of plain characters extends the current word
by exactly that run. -/
theorem sw_plain_run (ws : List Char) : ∀ (acc : Option (List Char)) (cs : List Char),
    ws ≠ [] → ws.all plainChar = true →
    shell_words false acc (ws ++ cs) =
      shell_words false (some (acc.getD [] ++ ws)) cs := by
  induction ws with
  | nil => intro acc cs hne; exact absurd rfl hne
  | cons c ws ih =>
    intro acc cs _ hall
    simp only [List.all_cons, Bool.and_eq_true] at hall
    obtain ⟨hc, hws⟩ := hall
    simp [plainChar] at hc
    rw [List.cons_append, sw_plain acc c _ hc.1.1 hc.1.2 hc.2]
    cases ws with
    | nil => simp
    | cons d ws2 =>
      rw [ih (some (acc.getD [] ++ [c])) cs (by simp) hws]
      simp

theorem sw_nil_some (w : List Char) : shell_words false (some w) [] = some [w] := by
  rw [shell_words.eq_def]

theorem sw_plain_run_start (ws : List Char) (cs : List Char) (hne : ws ≠ [])
    (hall : ws.all plainChar = true) :
    shell_words false none (ws ++ cs) = shell_words false (some ws) cs := by
  rw [sw_plain_run ws none cs hne hall]
  rfl

theorem sw_enter_quote_start (cs : List Char) :
    shell_words false none (squote :: cs) = shell_words true (some []) cs := by
  rw [sw_enter_quote]
  rfl

theorem sw_quoted_run_start (cs : List Char) (rest : List Char) :
    shell_words true (some []) (quoteL cs ++ squote :: rest) =
      shell_words false (some cs) rest := by
  rw [sw_quoted_run]
  rfl

theorem shell_argv_def (cmd : String) :
    shell_argv cmd =
      (shell_words false none cmd.data).map (fun ws => ws.map String.mk) := rfl

theorem squoteStr_data : squoteStr.data = [squote] := rfl

theorem quote_data (t : String) : (quote t).data = quoteL t.data := rfl

/-- Quoting leaves text without single quotes unchanged. -/
theorem quoteL_id_of_no_squote : ∀ cs : List Char, (∀ c ∈ cs, c ≠ squote) →
    quoteL cs = cs := by
  intro cs
  induction cs with
  | nil => intro _; rfl
  | cons c cs ih =>
    intro h
    have hc : c ≠ squote := h c (List.mem_cons_self _ _)
    simp [quoteL, quoteChar, hc, ih (fun e he => h e (List.mem_cons_of_mem _ he))]

/-- The shell words of the git commit command with amending enabled:
whatever single quotes, spaces, or backslashes the author and message
contain, the parsed command is exactly git commit with the author and the
message as single intact arguments. -/
theorem commit_cmd_argv_amend (s d u a m : String) (dr : Bool) :
    shell_argv (commit_cmd ⟨s, d, u, a, m⟩ ⟨none, none, dr, false⟩) =
      some ["git", "commit", "--author", a, "-e", "-am", m] := by
  have hdata : (commit_cmd ⟨s, d, u, a, m⟩ ⟨none, none, dr, false⟩).data =
      ("git").data ++ (spaceChar :: (("commit").data ++ (spaceChar ::
        (("--author").data ++ (spaceChar :: (squote :: (quoteL a.data ++
          (squote :: (spaceChar :: (("-e").data ++ (spaceChar ::
            (("-am").data ++ (spaceChar :: (squote :: (quoteL m.data ++
              [squote]))))))))))))))) := by
    simp [commit_cmd, String.data_append, squoteStr_data, quote_data,
      spaceChar, squote, bslash]
  rw [shell_argv_def, hdata,
    sw_plain_run_start ("git").data _ (by decide) (by decide),
    sw_space_some,
    sw_plain_run_start ("commit").data _ (by decide) (by decide),
    sw_space_some,
    sw_plain_run_start ("--author").data _ (by decide) (by decide),
    sw_space_some,
    sw_enter_quote_start,
    sw_quoted_run_start a.data _,
    sw_space_some,
    sw_plain_run_start ("-e").data _ (by decide) (by decide),
    sw_space_some,
    sw_plain_run_start ("-am").data _ (by decide) (by decide),
    sw_space_some,
    sw_enter_quote_start,
    sw_quoted_run_start m.data _,
    sw_nil_some]
  rfl

/-- The shell words of the git commit command with amending disabled. -/
theorem commit_cmd_argv_noamend (s d u a m : String) (dr : Bool) :
    shell_argv (commit_cmd ⟨s, d, u, a, m⟩ ⟨none, none, dr, true⟩) =
      some ["git", "commit", "--author", a, "-am", m] := by
  have hdata : (commit_cmd ⟨s, d, u, a, m⟩ ⟨none, none, dr, true⟩).data =
      ("git").data ++ (spaceChar :: (("commit").data ++ (spaceChar ::
        (("--author").data ++ (spaceChar :: (squote :: (quoteL a.data ++
          (squote :: (spaceChar :: (spaceChar ::
            (("-am").data ++ (spaceChar :: (squote :: (quoteL m.data ++
              [squote])))))))))))))) := by
    simp [commit_cmd, String.data_append, squoteStr_data, quote_data,
      spaceChar, squote, bslash]
  rw [shell_argv_def, hdata,
    sw_plain_run_start ("git").data _ (by decide) (by decide),
    sw_space_some,
    sw_plain_run_start ("commit").data _ (by decide) (by decide),
    sw_space_some,
    sw_plain_run_start ("--author").data _ (by decide) (by decide),
    sw_space_some,
    sw_enter_quote_start,
    sw_quoted_run_start a.data _,
    sw_space_some,
    sw_space_none,
    sw_plain_run_start ("-am").data _ (by decide) (by decide),
    sw_space_some,
    sw_enter_quote_start,
    sw_quoted_run_start m.data _,
    sw_nil_some]
  rfl

/-- C9: `quote` turns every single quote into the four characters quote,
backslash, quote, quote and leaves quote-free text untouched, and through
`commit_cmd` both the author and the message survive shell word-splitting
as single intact arguments of the git commit command, whatever single
quotes they embed, with or without the amend flag. -/
theorem quote_protects_commit_command (s d u a m : String) (dr : Bool) :
    shell_argv (commit_cmd ⟨s, d, u, a, m⟩ ⟨none, none, dr, false⟩) =
        some ["git", "commit", "--author", a, "-e", "-am", m] ∧
      shell_argv (commit_cmd ⟨s, d, u, a, m⟩ ⟨none, none, dr, true⟩) =
        some ["git", "commit", "--author", a, "-am", m] ∧
      (∀ cs : List Char, quoteL (cs.filter (fun c => c != squote)) =
        cs.filter (fun c => c != squote)) ∧
      (∀ cs ds : List Char, quoteL (cs ++ squote :: ds) =
        quoteL cs ++ squote :: bslash :: squote :: squote :: quoteL ds) := by
  refine ⟨commit_cmd_argv_amend s d u a m dr,
    commit_cmd_argv_noamend s d u a m dr, ?_, ?_⟩
  · intro cs
    refine quoteL_id_of_no_squote _ ?_
    intro c hc
    have := List.of_mem_filter hc
    simpa using this
  · intro cs ds
    induction cs with
    | nil => simp [quoteL, quoteChar]
    | cons c cs ih => simp [quoteL, ih, List.append_assoc]

end ApplyReviews
